import Mathlib

/-!
# udpperf: a verification development

A shallow embedding of `main.go` (package `main` of udpperf): the collector loop
`runServer`, the emitter loop `runClient`, the bandwidth parser `parseBytes`, and the two
`encoding/binary` big-endian routines they call to write and read the sequence number.

Conventions.
* A Go `uint64` is a `Nat` below `2 ^ 64`; every `+`, `-` and `++` of the source is
  followed by an explicit reduction modulo `2 ^ 64`.
* A Go `int64` is an `Int`; products and shifts are reduced into `[-2 ^ 63, 2 ^ 63)`.
* A Go `byte` is a `Nat` below `256`; a `[]byte` and a `string` are lists of bytes.
* A run-time panic is an explicit outcome, never an unspecified value.
-/

namespace Udpperf

/-! ## Machine integers -/

/-- The number of values of a Go `uint64`. -/
def U64 : Nat := 2 ^ 64

/-- Go `a + b` on `uint64`. -/
def add64 (a b : Nat) : Nat := (a + b) % U64

/-- Go `a - b` on `uint64` (operands below `2 ^ 64`). -/
def sub64 (a b : Nat) : Nat := (a + U64 - b) % U64

/-- Conversion of an integer to Go `int64`: two's complement reduction. -/
def wrapInt64 (x : Int) : Int := (x + 2 ^ 63) % 2 ^ 64 - 2 ^ 63

/-- Go `a * b` on `int64`. -/
def mulInt64 (a b : Int) : Int := wrapInt64 (a * b)

/-- Go `a << k` on `int64`. -/
def shlInt64 (a : Int) (k : Nat) : Int := wrapInt64 (a * 2 ^ k)

/-! ## `encoding/binary`: `BigEndian.PutUint64` and `BigEndian.Uint64`

Both routines of the Go standard library start with the bounds check `_ = b[7]`, which
panics on a slice shorter than 8 bytes; `none` is that panic. -/

/-- Go `byte(v)` for an unsigned `v`: the low 8 bits. -/
def toByte (v : Nat) : Nat := v % 256

/-- `binary.BigEndian.PutUint64(b, v)`: `b[0] = byte(v >> 56)`, ..., `b[7] = byte(v)`.
The result is the slice after the eight stores. -/
def putUint64 (b : List Nat) (v : Nat) : Option (List Nat) :=
  if b.length < 8 then none
  else
    some ((((((((b.set 0 (toByte (v >>> 56))).set 1 (toByte (v >>> 48))).set 2
      (toByte (v >>> 40))).set 3 (toByte (v >>> 32))).set 4 (toByte (v >>> 24))).set 5
      (toByte (v >>> 16))).set 6 (toByte (v >>> 8))).set 7 (toByte v))

/-- `binary.BigEndian.Uint64(b)`:
`uint64(b[7]) | uint64(b[6])<<8 | ... | uint64(b[0])<<56`. -/
def uint64 (b : List Nat) : Option Nat :=
  match b with
  | b0 :: b1 :: b2 :: b3 :: b4 :: b5 :: b6 :: b7 :: _ =>
    some ((b7 ||| b6 <<< 8 ||| b5 <<< 16 ||| b4 <<< 24 ||| b3 <<< 32 ||| b2 <<< 40
      ||| b1 <<< 48 ||| b0 <<< 56) % U64)
  | _ => none

/-- The eight bytes of the big-endian encoding of `v`, most significant first. -/
def beBytes (v : Nat) : List Nat :=
  [toByte (v >>> 56), toByte (v >>> 48), toByte (v >>> 40), toByte (v >>> 32),
   toByte (v >>> 24), toByte (v >>> 16), toByte (v >>> 8), toByte v]

/-- Go `b[:8]` on a slice whose length and capacity agree (the emitter's buffer
`make([]byte, packetSize)`): panics (`none`) when fewer than 8 bytes are there. -/
def slice8 (b : List Nat) : Option (List Nat) :=
  if b.length < 8 then none else some (b.take 8)

/-- The statement `binary.BigEndian.PutUint64(b[:8], v)` of `runClient`: the stores go
through the sub-slice `b[:8]` into the array shared with `b`; the result is `b` after
the statement. -/
def putSeq (b : List Nat) (v : Nat) : Option (List Nat) :=
  match slice8 b with
  | none => none
  | some hd =>
    match putUint64 hd v with
    | none => none
    | some hd1 => some (hd1 ++ b.drop 8)

/-! ## The collector: `runServer` -/

/-- A line printed by the receive loop of `runServer`. -/
inductive Report where
  /-- `fmt.Printf("Lost packet %d\n", n)`. -/
  | lostPacket (n : Nat)
  /-- `fmt.Printf("Lost packets between %d and %d\n", lo, hi)`. -/
  | lostRange (lo hi : Nat)
  deriving DecidableEq, Repr

/-- The text of a report, as `fmt.Printf` writes it. -/
def Report.print : Report → String
  | .lostPacket n => "Lost packet " ++ toString n ++ "\n"
  | .lostRange lo hi =>
    "Lost packets between " ++ toString lo ++ " and " ++ toString hi ++ "\n"

/-- The sequence numbers a report declares lost. -/
def Report.covers : Report → Nat → Bool
  | .lostPacket n, x => x == n
  | .lostRange lo hi, x => decide (lo ≤ x) && decide (x ≤ hi)

/-- The body of the receive loop of `runServer` from the decoded sequence number `pn` on
(main.go lines 118-131): the line printed, if any, and the new value of `highest`. -/
def serverStep (highest pn : Nat) : Option Report × Nat :=
  if pn ≤ highest then (none, highest)
  else
    let report :=
      if pn ≠ add64 highest 1 then
        if sub64 pn highest > 2 then
          some (Report.lostRange (add64 highest 1) (sub64 pn 1))
        else some (Report.lostPacket (add64 highest 1))
      else none
    (report, pn)

/-- The receive loop run over the sequence numbers of the datagrams received, in order:
what each iteration printed, and the final `highest`. -/
def serverRun (highest : Nat) : List Nat → List (Option Report) × Nat
  | [] => ([], highest)
  | pn :: rest =>
    let r := serverStep highest pn
    let rs := serverRun r.2 rest
    (r.1 :: rs.1, rs.2)

/-- `runServer` from its start: `var highest uint64` is zero. -/
def runServer (pns : List Nat) : List (Option Report) × Nat := serverRun 0 pns

/-- `const bufSize = 4 * 1 << 10`. -/
def bufSize : Nat := (4 * 1) <<< 10

/-- `n, _, err := conn.ReadFrom(b)` on a datagram, without error: the datagram is copied
to the front of `b`, what does not fit is dropped; the count `n` and `b` afterwards. -/
def readFrom (b dgram : List Nat) : Nat × List Nat :=
  let n := min dgram.length b.length
  (n, dgram.take n ++ b.drop n)

/-- The expression `binary.BigEndian.Uint64(b[:8])` of `runServer`, for the receive buffer
`arr` (`bufSize` bytes) and the datagram just read: after `b = b[:n]` the slice `b[:8]` is
taken within the capacity `bufSize`, so it is the first 8 bytes of the buffer whatever
`n` is. -/
def recvSeq (arr dgram : List Nat) : Option Nat :=
  uint64 ((readFrom arr dgram).2.take 8)

/-- The state of the receive loop: the buffer `b` (at its full length) and `highest`. -/
structure Server where
  /-- The `bufSize` bytes behind `b`. -/
  arr : List Nat
  /-- The variable `highest`. -/
  highest : Nat
  deriving DecidableEq, Repr

/-- One iteration of the receive loop on a datagram read without error (main.go lines
112-131); `none` is a panic. -/
def serverIter (s : Server) (dgram : List Nat) : Option (Option Report × Server) :=
  let arr1 := (readFrom s.arr dgram).2
  match uint64 (arr1.take 8) with
  | none => none
  | some pn =>
    let r := serverStep s.highest pn
    some (r.1, { arr := arr1, highest := r.2 })

/-- The sequence numbers that advanced `highest` during a run, in order. -/
def accepted (highest : Nat) : List Nat → List Nat
  | [] => []
  | pn :: rest =>
    if (serverStep highest pn).2 ≠ highest then pn :: accepted (serverStep highest pn).2 rest
    else accepted (serverStep highest pn).2 rest

/-- Whether the output of one iteration declares `x` lost. -/
def covered (o : Option Report) (x : Nat) : Bool :=
  match o with
  | some r => r.covers x
  | none => false

/-- The number of reports of a run that declare `x` lost. -/
def lostCount (outs : List (Option Report)) (x : Nat) : Nat :=
  outs.countP (fun o => covered o x)

/-! ## `strconv.ParseInt(s, 10, 64)`

The Go standard library routine, specialised to base 10 and 64 bits. It returns a value
and an error; the error, when not nil, is a `*NumError` whose `Err` field is
`ErrSyntax` or `ErrRange`. -/

/-- The `Err` field of a `*strconv.NumError`. -/
inductive NumError where
  /-- `strconv.ErrSyntax`. -/
  | errSyntax
  /-- `strconv.ErrRange`. -/
  | errRange
  deriving DecidableEq, Repr

/-- The bytes of a string of ASCII characters. -/
def bytes (s : String) : List Nat := s.toList.map Char.toNat

/-- The digit loop of `strconv.ParseUint(s, 10, 64)`, with `cutoff = maxUint64/10 + 1` and
`maxVal = 1<<64 - 1`. A byte that is not a decimal digit is a syntax error (a letter gets
a digit value of 10 or more, which is not below the base). -/
def parseUintLoop (n : Nat) : List Nat → Nat × Option NumError
  | [] => (n, none)
  | c :: cs =>
    if '0'.toNat ≤ c ∧ c ≤ '9'.toNat then
      let d := c - '0'.toNat
      if n ≥ (U64 - 1) / 10 + 1 then (U64 - 1, some NumError.errRange)
      else
        let n10 := (n * 10) % U64
        let n1 := (n10 + d) % U64
        if n1 < n10 ∨ n1 > U64 - 1 then (U64 - 1, some NumError.errRange)
        else parseUintLoop n1 cs
    else (0, some NumError.errSyntax)

/-- `strconv.ParseUint(s, 10, 64)`. -/
def parseUint (s : List Nat) : Nat × Option NumError :=
  if s = [] then (0, some NumError.errSyntax) else parseUintLoop 0 s

/-- `strconv.ParseInt(s, 10, 64)`. -/
def parseInt (s : List Nat) : Int × Option NumError :=
  match s with
  | [] => (0, some NumError.errSyntax)
  | c :: cs =>
    let neg := decide (c = '-'.toNat)
    let body := if c = '+'.toNat ∨ c = '-'.toNat then cs else s
    let r := parseUint body
    if r.2 = some NumError.errSyntax then (0, r.2)
    else if ¬ neg ∧ r.1 ≥ 2 ^ 63 then (2 ^ 63 - 1, some NumError.errRange)
    else if neg ∧ r.1 > 2 ^ 63 then (-(2 ^ 63), some NumError.errRange)
    else
      let n := wrapInt64 (r.1 : Int)
      (if neg then wrapInt64 (-n) else n, none)

/-! ## `parseBytes` -/

/-- What a call of `parseBytes` does: it panics, or it returns a value and an error. -/
inductive Outcome where
  /-- A run-time panic. -/
  | panic
  /-- `return v, err`; `err = none` is the nil error. -/
  | ret (v : Int) (err : Option NumError)
  deriving DecidableEq, Repr

/-- `parseBytes` (main.go lines 19-38). `unit := s[len(s)-1]` indexes out of range on the
empty string, a run-time panic. `num * 1 << 10` parses as `(num * 1) << 10`. -/
def parseBytes (s : List Nat) : Outcome :=
  match s.getLast? with
  | none => Outcome.panic
  | some unit =>
    if unit ≠ 'k'.toNat ∧ unit ≠ 'm'.toNat ∧ unit ≠ 'g'.toNat then
      Outcome.ret (parseInt s).1 (parseInt s).2
    else
      let r := parseInt s.dropLast
      if r.2 ≠ none then Outcome.ret 0 r.2
      else if unit = 'k'.toNat then Outcome.ret (shlInt64 (mulInt64 r.1 1) 10) none
      else if unit = 'm'.toNat then Outcome.ret (shlInt64 (mulInt64 r.1 1) 20) none
      else if unit = 'g'.toNat then Outcome.ret (shlInt64 (mulInt64 r.1 1) 30) none
      else Outcome.panic

/-- The part of the argument that `parseBytes` hands to `strconv.ParseInt`: all of it, or
all but a final `k`, `m` or `g`. -/
def numericPart (s : List Nat) : List Nat :=
  match s.getLast? with
  | none => s
  | some unit =>
    if unit ≠ 'k'.toNat ∧ unit ≠ 'm'.toNat ∧ unit ≠ 'g'.toNat then s else s.dropLast

/-! ## The emitter: `runClient` -/

/-- `time.Second`, in nanoseconds. -/
def second : Int := 1000000000

/-- `pps := bandwidth / int64(packetSize)`: Go integer division truncates toward zero
and panics on a zero divisor (`none`). -/
def packetsPerSecond (bandwidth packetSize : Int) : Option Int :=
  if packetSize = 0 then none else some (wrapInt64 (bandwidth.tdiv packetSize))

/-- `time.Second / time.Duration(pps)`, the argument of `time.NewTicker`. -/
def pacePeriod (pps : Int) : Option Int :=
  if pps = 0 then none else some (wrapInt64 (second.tdiv pps))

/-- `time.NewTicker(d)`: panics (`none`) unless `d` is positive; otherwise a ticker of
period `d`. -/
def newTicker (d : Int) : Option Int :=
  if d ≤ 0 then none else some d

/-- The pace ticker of `runClient`, from `bandwidth` and `packetSize` (main.go lines 137
and 154); `none` is a panic. -/
def paceTicker (bandwidth packetSize : Int) : Option Int :=
  match packetsPerSecond bandwidth packetSize with
  | none => none
  | some pps =>
    match pacePeriod pps with
    | none => none
    | some d => newTicker d

/-- The three cases of the `select` statement of the send loop. -/
inductive Event where
  /-- `case <-reporter.C`. -/
  | report
  /-- `case <-timer.C`. -/
  | deadline
  /-- `case <-ticker.C`. -/
  | pace
  deriving DecidableEq, Repr

/-- Where the send loop stands. -/
inductive Status where
  /-- The loop goes on. -/
  | running
  /-- `runClient` returned; `failed` tells a non-nil error from `conn.Write`. -/
  | returned (failed : Bool)
  /-- A run-time panic. -/
  | panicked
  deriving DecidableEq, Repr

/-- The state of the send loop, with a record of what left the function. -/
structure Client where
  /-- The buffer `b`. -/
  b : List Nat
  /-- The variable `pn`. -/
  pn : Nat
  /-- The variable `highestReported`. -/
  highestReported : Nat
  /-- Where the loop stands. -/
  status : Status
  /-- The arguments of the calls of `conn.Write`, oldest first. -/
  sent : List (List Nat)
  /-- The numbers printed by `fmt.Printf("\tSent %d packets.\n", ...)`, oldest first. -/
  printed : List Nat
  deriving DecidableEq, Repr

/-- The state at the top of the send loop: `b := make([]byte, packetSize)`, `pn` and
`highestReported` zero. -/
def clientInit (packetSize : Nat) : Client :=
  { b := List.replicate packetSize 0, pn := 0, highestReported := 0,
    status := Status.running, sent := [], printed := [] }

/-- One iteration of the send loop in which `select` takes the case `e` (main.go lines
160-173); `writeOk` tells whether `conn.Write` returns a nil error. -/
def clientStep (c : Client) (e : Event) (writeOk : Bool) : Client :=
  match e with
  | Event.report =>
    { c with printed := c.printed ++ [sub64 c.pn c.highestReported],
             highestReported := c.pn }
  | Event.deadline => { c with status := Status.returned false }
  | Event.pace =>
    let pn1 := add64 c.pn 1
    match putSeq c.b pn1 with
    | none => { c with pn := pn1, status := Status.panicked }
    | some b1 =>
      { c with pn := pn1, b := b1, sent := c.sent ++ [b1],
               status := if writeOk then Status.running else Status.returned true }

/-- `select` with the cases in `ready` able to proceed: Go takes one of them, chosen at
random; the iteration is `clientStep` on the case taken. -/
def selectStep (ready : List Event) (writeOk : Bool) (c c1 : Client) : Prop :=
  ∃ e ∈ ready, c1 = clientStep c e writeOk

/-- The send loop over the cases taken by successive `select` statements, until the
function returns or panics. -/
def clientRun (c : Client) : List (Event × Bool) → Client
  | [] => c
  | (e, writeOk) :: rest =>
    match c.status with
    | Status.running => clientRun (clientStep c e writeOk) rest
    | _ => c

/-- The invariant of the send loop for payload size `L`: the buffer keeps its length, no
panic has happened, `pn` counts the datagrams handed to the socket (modulo `2 ^ 64`), and
the datagram at index `i` has `L` bytes, the first 8 of which encode `i + 1`. -/
def ClientInv (L : Nat) (c : Client) : Prop :=
  c.b.length = L ∧ c.status ≠ Status.panicked ∧ c.pn = c.sent.length % U64 ∧
    ∀ i d, c.sent[i]? = some d → d.length = L ∧ d.take 8 = beBytes ((i + 1) % U64)

/-! ## Theorems: the collector -/

theorem add64_one (h : Nat) (hh : h + 1 < U64) : add64 h 1 = h + 1 := by
  unfold add64; exact Nat.mod_eq_of_lt hh

theorem sub64_of_le (a b : Nat) (hab : b ≤ a) (ha : a < U64) : sub64 a b = a - b := by
  unfold sub64
  have : a + U64 - b = (a - b) + U64 := by omega
  rw [this, Nat.add_mod_right]
  exact Nat.mod_eq_of_lt (by omega)

/-- The step of the receive loop, in arithmetic without wrap-around. -/
theorem serverStep_eq (h pn : Nat) (hpn : pn < U64) :
    serverStep h pn =
      if pn ≤ h then (none, h)
      else if pn = h + 1 then (none, pn)
      else if pn = h + 2 then (some (Report.lostPacket (h + 1)), pn)
      else (some (Report.lostRange (h + 1) (pn - 1)), pn) := by
  unfold serverStep
  by_cases h1 : pn ≤ h
  · simp [h1]
  · have hh : h + 1 < U64 := by omega
    have e1 : add64 h 1 = h + 1 := add64_one h hh
    have e2 : sub64 pn h = pn - h := sub64_of_le pn h (by omega) hpn
    have e3 : sub64 pn 1 = pn - 1 := sub64_of_le pn 1 (by omega) hpn
    simp only [h1, if_false, e1, e2, e3]
    by_cases h2 : pn = h + 1
    · simp [h2]
    · by_cases h3 : pn = h + 2
      · subst h3; simp
      · have : pn - h > 2 := by omega
        simp [h2, h3, this]

/-- C1. One iteration of the `runServer` receive loop, for `highest = h` and a received
sequence number `pn` (a `uint64`): nothing is printed when `pn ≤ h + 1`; the line
`Lost packet h+1` is printed when `pn - h = 2`; the line for the inclusive range
`[h+1, pn-1]` is printed when `pn - h > 2`. -/
theorem serverStep_report (h pn : Nat) (hpn : pn < U64) :
    (pn ≤ h + 1 → (serverStep h pn).1 = none) ∧
    (pn - h = 2 → (serverStep h pn).1 = some (Report.lostPacket (h + 1))) ∧
    (pn - h > 2 → (serverStep h pn).1 = some (Report.lostRange (h + 1) (pn - 1))) := by
  rw [serverStep_eq h pn hpn]
  refine ⟨fun h1 => ?_, fun h2 => ?_, fun h3 => ?_⟩
  · by_cases c : pn ≤ h
    · simp [c]
    · have : pn = h + 1 := by omega
      simp [this]
  · have : pn = h + 2 := by omega
    subst this; simp
  · have c1 : ¬ pn ≤ h := by omega
    have c2 : ¬ pn = h + 1 := by omega
    have c3 : ¬ pn = h + 2 := by omega
    simp [c1, c2, c3]

/-- C1, at `highest = 5`: receiving 6 prints nothing, receiving 7 prints `Lost packet 6`,
receiving 10 prints the range from 6 to 9. -/
theorem serverStep_report_witness :
    (serverStep 5 6).1 = none ∧
    (serverStep 5 7).1 = some (Report.lostPacket 6) ∧
    (serverStep 5 10).1 = some (Report.lostRange 6 9) ∧
    (Report.lostPacket 6).print = "Lost packet 6\n" ∧
    (Report.lostRange 6 9).print = "Lost packets between 6 and 9\n" :=
  ⟨(serverStep_report 5 6 (by decide)).1 (by decide),
   (serverStep_report 5 7 (by decide)).2.1 (by decide),
   (serverStep_report 5 10 (by decide)).2.2 (by decide), by decide, by decide⟩

theorem serverStep_snd (h pn : Nat) : (serverStep h pn).2 = max h pn := by
  unfold serverStep
  by_cases c : pn ≤ h
  · simp [c]
  · simp only [c, if_false]
    exact (max_eq_right (by omega)).symm

theorem serverRun_snd (h : Nat) (pns : List Nat) :
    (serverRun h pns).2 = pns.foldl max h := by
  induction pns generalizing h with
  | nil => rfl
  | cons pn rest ih =>
    simp only [serverRun, List.foldl_cons]
    rw [ih, serverStep_snd]

theorem serverRun_append_snd (h : Nat) (pre suf : List Nat) :
    (serverRun h (pre ++ suf)).2 = (serverRun (serverRun h pre).2 suf).2 := by
  rw [serverRun_snd, serverRun_snd, serverRun_snd, List.foldl_append]

theorem le_foldl_max (h : Nat) (pns : List Nat) : h ≤ pns.foldl max h := by
  induction pns generalizing h with
  | nil => exact Nat.le_refl h
  | cons pn rest ih =>
    simp only [List.foldl_cons]
    exact Nat.le_trans (Nat.le_max_left h pn) (ih (max h pn))

theorem mem_le_foldl_max (h : Nat) (pns : List Nat) : ∀ x ∈ pns, x ≤ pns.foldl max h := by
  induction pns generalizing h with
  | nil => intro x hx; cases hx
  | cons pn rest ih =>
    intro x hx
    simp only [List.foldl_cons]
    rcases List.mem_cons.mp hx with rfl | hx
    · exact Nat.le_trans (Nat.le_max_right h x) (le_foldl_max (max h x) rest)
    · exact ih (max h pn) x hx

theorem foldl_max_mem (h : Nat) (pns : List Nat) : pns.foldl max h ∈ h :: pns := by
  induction pns generalizing h with
  | nil => simp
  | cons pn rest ih =>
    simp only [List.foldl_cons]
    have := ih (max h pn)
    rcases List.mem_cons.mp this with e | m
    · rw [e]
      rcases Nat.le_total h pn with c | c
      · rw [max_eq_right c]; simp
      · rw [max_eq_left c]; simp
    · exact List.mem_cons_of_mem _ (List.mem_cons_of_mem _ m)

/-- C2. One iteration of the `runServer` receive loop takes `highest = h` to `max h pn`;
over every finite sequence of received sequence numbers, from `highest = 0`, the value
after a prefix is at most the value after any extension of it, and the final value is the
maximum of 0 and all the numbers received. -/
theorem highest_is_running_max :
    (∀ h pn : Nat, (serverStep h pn).2 = max h pn) ∧
    (∀ pre suf : List Nat, (runServer pre).2 ≤ (runServer (pre ++ suf)).2) ∧
    (∀ pns : List Nat, (runServer pns).2 = pns.foldl max 0 ∧
      (runServer pns).2 ∈ 0 :: pns ∧ ∀ x ∈ 0 :: pns, x ≤ (runServer pns).2) := by
  refine ⟨serverStep_snd, fun pre suf => ?_, fun pns => ⟨serverRun_snd 0 pns, ?_, ?_⟩⟩
  · unfold runServer
    rw [serverRun_append_snd, serverRun_snd _ suf]
    exact le_foldl_max _ suf
  · unfold runServer
    rw [serverRun_snd]; exact foldl_max_mem 0 pns
  · intro x hx
    unfold runServer
    rw [serverRun_snd]
    rcases List.mem_cons.mp hx with rfl | hx
    · exact Nat.zero_le _
    · exact mem_le_foldl_max 0 pns x hx

/-- C3. A sequence number `pn ≤ highest`, fed to the receive loop `k` times in a row,
prints nothing in any of the `k` iterations and leaves `highest` as it was. -/
theorem stale_repeat_is_silent (h pn k : Nat) (hle : pn ≤ h) :
    serverRun h (List.replicate k pn) = (List.replicate k none, h) := by
  induction k with
  | zero => rfl
  | succ k ih =>
    have hs : serverStep h pn = (none, h) := by unfold serverStep; simp [hle]
    simp only [List.replicate_succ, serverRun, hs, ih]

/-- C3, at `highest = 7`: the stale number 4, received three times. -/
theorem stale_repeat_is_silent_witness :
    serverRun 7 [4, 4, 4] = ([none, none, none], 7) :=
  stale_repeat_is_silent 7 4 3 (by decide)

theorem serverStep_stale (h pn : Nat) (hle : pn ≤ h) : serverStep h pn = (none, h) := by
  unfold serverStep; simp [hle]

theorem serverStep_fresh (h pn : Nat) (hlt : h < pn) (hpn : pn < U64) :
    (serverStep h pn).2 = pn ∧
      ∀ x, covered (serverStep h pn).1 x = true ↔ (h < x ∧ x < pn) := by
  have c0 : ¬ pn ≤ h := by omega
  rw [serverStep_eq h pn hpn, if_neg c0]
  by_cases c1 : pn = h + 1
  · rw [if_pos c1]
    refine ⟨rfl, fun x => ?_⟩
    simp only [covered]
    constructor
    · intro hf; cases hf
    · intro hx; omega
  · rw [if_neg c1]
    by_cases c2 : pn = h + 2
    · rw [if_pos c2]
      refine ⟨rfl, fun x => ?_⟩
      simp only [covered, Report.covers, beq_iff_eq]
      omega
    · rw [if_neg c2]
      refine ⟨rfl, fun x => ?_⟩
      simp only [covered, Report.covers, Bool.and_eq_true, decide_eq_true_eq]
      omega

theorem lostCount_cons (o : Option Report) (outs : List (Option Report)) (x : Nat) :
    lostCount (o :: outs) x = lostCount outs x + (if covered o x = true then 1 else 0) := by
  unfold lostCount
  exact List.countP_cons _ o outs

/-- The accounting invariant of the receive loop, from any `highest = h`: numbers up to
`h` and beyond the final `highest` are neither accepted nor declared lost; a number in
between is accepted and never declared lost, or never accepted and declared lost once. -/
theorem serverRun_accounting (pns : List Nat) (hpns : ∀ pn ∈ pns, pn < U64) (h x : Nat) :
    ((x ≤ h ∨ (serverRun h pns).2 < x) →
      x ∉ accepted h pns ∧ lostCount (serverRun h pns).1 x = 0) ∧
    (h < x → x ≤ (serverRun h pns).2 →
      (x ∈ accepted h pns ∧ lostCount (serverRun h pns).1 x = 0) ∨
      (x ∉ accepted h pns ∧ lostCount (serverRun h pns).1 x = 1)) := by
  induction pns generalizing h with
  | nil =>
    refine ⟨fun _ => ⟨by simp [accepted], by simp [serverRun, lostCount]⟩, fun h1 h2 => ?_⟩
    simp only [serverRun] at h2
    omega
  | cons pn rest ih =>
    have hpn : pn < U64 := hpns pn (List.mem_cons_self _ _)
    have hrest : ∀ q ∈ rest, q < U64 := fun q hq => hpns q (List.mem_cons_of_mem _ hq)
    simp only [serverRun, accepted, lostCount_cons]
    by_cases c0 : pn ≤ h
    · rw [serverStep_stale h pn c0]
      simp only [ne_eq, not_true_eq_false, if_false, covered, Bool.false_eq_true,
        Nat.add_zero]
      exact ih hrest h
    · obtain ⟨e2, hcov⟩ := serverStep_fresh h pn (by omega) hpn
      have ih1 := ih hrest pn
      have hm : pn ≤ (serverRun pn rest).2 := by
        rw [serverRun_snd]; exact le_foldl_max pn rest
      have hne : ¬ pn = h := by omega
      rw [e2]
      simp only [ne_eq, hne, not_false_eq_true, if_true, List.mem_cons]
      by_cases cx : covered (serverStep h pn).1 x = true
      · have hx := (hcov x).mp cx
        have hi := ih1.1 (Or.inl (by omega))
        simp only [cx, if_true, hi.2]
        refine ⟨fun hf => by omega, fun _ _ => Or.inr ⟨?_, by simp⟩⟩
        rintro (hc | hc)
        · omega
        · exact hi.1 hc
      · have hx : ¬ (h < x ∧ x < pn) := fun hc => cx ((hcov x).mpr hc)
        simp only [cx, if_false, Nat.add_zero]
        refine ⟨fun hf => ?_, fun hx1 hx2 => ?_⟩
        · have hi := ih1.1 (by omega)
          refine ⟨?_, hi.2⟩
          rintro (hc | hc)
          · omega
          · exact hi.1 hc
        · by_cases cy : x = pn
          · exact Or.inl ⟨Or.inl cy, (ih1.1 (Or.inl (by omega))).2⟩
          · rcases ih1.2 (by omega) hx2 with ⟨a, b⟩ | ⟨a, b⟩
            · exact Or.inl ⟨Or.inr a, b⟩
            · refine Or.inr ⟨?_, b⟩
              rintro (hc | hc)
              · exact cy hc
              · exact a hc

/-- C4. Over every finite sequence of received sequence numbers processed by `runServer`
from `highest = 0`, every number in `1..highest` (final value) is either accepted (it
advanced `highest`) and declared lost by no report, or not accepted and declared lost by
exactly one report; nothing outside `1..highest` is accepted or declared lost. -/
theorem loss_accounting (pns : List Nat) (hpns : ∀ pn ∈ pns, pn < U64) (x : Nat) :
    (1 ≤ x → x ≤ (runServer pns).2 →
      (x ∈ accepted 0 pns ∧ lostCount (runServer pns).1 x = 0) ∨
      (x ∉ accepted 0 pns ∧ lostCount (runServer pns).1 x = 1)) ∧
    ((x = 0 ∨ (runServer pns).2 < x) →
      x ∉ accepted 0 pns ∧ lostCount (runServer pns).1 x = 0) := by
  unfold runServer
  have key := serverRun_accounting pns hpns 0 x
  refine ⟨fun h1 h2 => key.2 (by omega) h2, fun h1 => key.1 ?_⟩
  rcases h1 with h1 | h1
  · exact Or.inl (by omega)
  · exact Or.inr h1

/-- C4, on the datagrams 1, 2, 3, 6, 7: one report, the range from 4 to 5, printed in
the iteration that accepts 6; `highest` ends at 7; 4 is lost once and never accepted. -/
theorem loss_accounting_witness :
    runServer [1, 2, 3, 6, 7] = ([none, none, none, some (Report.lostRange 4 5), none], 7) ∧
    accepted 0 [1, 2, 3, 6, 7] = [1, 2, 3, 6, 7] ∧
    (Report.lostRange 4 5).print = "Lost packets between 4 and 5\n" ∧
    ((1 ≤ 4 → 4 ≤ (runServer [1, 2, 3, 6, 7]).2 →
      (4 ∈ accepted 0 [1, 2, 3, 6, 7] ∧ lostCount (runServer [1, 2, 3, 6, 7]).1 4 = 0) ∨
      (4 ∉ accepted 0 [1, 2, 3, 6, 7] ∧ lostCount (runServer [1, 2, 3, 6, 7]).1 4 = 1)) ∧
    ((4 = 0 ∨ (runServer [1, 2, 3, 6, 7]).2 < 4) →
      4 ∉ accepted 0 [1, 2, 3, 6, 7] ∧ lostCount (runServer [1, 2, 3, 6, 7]).1 4 = 0)) :=
  ⟨by decide, by decide, by decide, loss_accounting [1, 2, 3, 6, 7] (by decide) 4⟩

/-! ## Theorems: the sequence number on the wire -/

theorem putUint64_eq (b : List Nat) (v : Nat) (hb : 8 ≤ b.length) :
    putUint64 b v = some (beBytes v ++ b.drop 8) := by
  match b, hb with
  | b0 :: b1 :: b2 :: b3 :: b4 :: b5 :: b6 :: b7 :: rest, _ =>
    simp [putUint64, beBytes]

theorem beBytes_length (v : Nat) : (beBytes v).length = 8 := rfl

theorem putSeq_eq (b : List Nat) (v : Nat) (hb : 8 ≤ b.length) :
    putSeq b v = some (beBytes v ++ b.drop 8) := by
  have h1 : slice8 b = some (b.take 8) := by
    unfold slice8; rw [if_neg (by omega)]
  have h2 : 8 ≤ (b.take 8).length := by
    rw [List.length_take]; omega
  have h3 : (b.take 8).drop 8 = [] := by
    apply List.drop_eq_nil_of_le
    rw [List.length_take]; omega
  unfold putSeq
  rw [h1]
  simp only [putUint64_eq _ v h2, h3, List.append_nil]

theorem putSeq_short (b : List Nat) (v : Nat) (hb : b.length < 8) : putSeq b v = none := by
  unfold putSeq slice8
  rw [if_pos hb]

theorem lor_shl (acc x k : Nat) (hacc : acc < 2 ^ k) :
    acc ||| x <<< k = x * 2 ^ k + acc := by
  rw [Nat.lor_comm, Nat.shiftLeft_eq, Nat.mul_comm x, ← Nat.mul_add_lt_is_or hacc]

theorem uint64_of_bytes (b0 b1 b2 b3 b4 b5 b6 b7 : Nat) (rest : List Nat)
    (h0 : b0 < 256) (h1 : b1 < 256) (h2 : b2 < 256) (h3 : b3 < 256)
    (h4 : b4 < 256) (h5 : b5 < 256) (h6 : b6 < 256) (h7 : b7 < 256) :
    uint64 (b0 :: b1 :: b2 :: b3 :: b4 :: b5 :: b6 :: b7 :: rest) =
      some (b0 * 2 ^ 56 + b1 * 2 ^ 48 + b2 * 2 ^ 40 + b3 * 2 ^ 32 + b4 * 2 ^ 24
        + b5 * 2 ^ 16 + b6 * 2 ^ 8 + b7) := by
  unfold uint64
  simp only
  rw [lor_shl b7 b6 8 (by omega)]
  rw [lor_shl _ b5 16 (by omega)]
  rw [lor_shl _ b4 24 (by omega)]
  rw [lor_shl _ b3 32 (by omega)]
  rw [lor_shl _ b2 40 (by omega)]
  rw [lor_shl _ b1 48 (by omega)]
  rw [lor_shl _ b0 56 (by omega)]
  congr 1
  unfold U64
  omega

theorem uint64_beBytes (v : Nat) (hv : v < U64) (rest : List Nat) :
    uint64 (beBytes v ++ rest) = some v := by
  unfold beBytes
  simp only [List.cons_append, List.nil_append]
  unfold U64 at hv
  simp only [toByte]
  rw [uint64_of_bytes _ _ _ _ _ _ _ _ rest (Nat.mod_lt _ (by decide))
    (Nat.mod_lt _ (by decide)) (Nat.mod_lt _ (by decide)) (Nat.mod_lt _ (by decide))
    (Nat.mod_lt _ (by decide)) (Nat.mod_lt _ (by decide)) (Nat.mod_lt _ (by decide))
    (Nat.mod_lt _ (by decide))]
  simp only [Nat.shiftRight_eq_div_pow]
  congr 1
  omega

theorem take8_beBytes_append (v : Nat) (rest : List Nat) :
    (beBytes v ++ rest).take 8 = beBytes v := by
  rw [List.take_append_of_le_length (by rw [beBytes_length])]
  exact List.take_of_length_le (by rw [beBytes_length])

theorem readFrom_take8 (arr dgram : List Nat) (ha : 8 ≤ arr.length) (hd : 8 ≤ dgram.length) :
    (readFrom arr dgram).2.take 8 = dgram.take 8 := by
  unfold readFrom
  simp only
  have hmin : 8 ≤ min dgram.length arr.length := by
    rw [Nat.le_min]; exact ⟨hd, ha⟩
  rw [List.take_append_of_le_length (by rw [List.length_take]; omega)]
  rw [List.take_take, Nat.min_eq_left hmin]

/-- An iteration of the receive loop on a datagram that starts with the encoding of `n`
does not panic and is `serverStep` on `n`. -/
theorem serverIter_beBytes (s : Server) (n : Nat) (rest : List Nat) (hn : n < U64)
    (harr : s.arr.length = bufSize) :
    serverIter s (beBytes n ++ rest) =
      some ((serverStep s.highest n).1,
        { arr := (readFrom s.arr (beBytes n ++ rest)).2,
          highest := (serverStep s.highest n).2 }) := by
  have ha : 8 ≤ s.arr.length := by rw [harr]; decide
  have hd : 8 ≤ (beBytes n ++ rest).length := by
    rw [List.length_append, beBytes_length]; omega
  have hdec : uint64 ((readFrom s.arr (beBytes n ++ rest)).2.take 8) = some n := by
    rw [readFrom_take8 _ _ ha hd, take8_beBytes_append]
    have := uint64_beBytes n hn []
    rwa [List.append_nil] at this
  unfold serverIter
  simp only [hdec]

/-- C5. For every `uint64` `n` and every buffer `b` of at least 8 bytes, the statement
`binary.BigEndian.PutUint64(b[:8], n)` of the emitter does not panic and leaves a buffer of
the same length whose bytes at offsets 8 and above are those of `b`; decoding its first 8
bytes with `binary.BigEndian.Uint64` gives `n`, also along the collector's path (through
`ReadFrom` into the receive buffer and `b[:8]`). -/
theorem seq_roundtrip (n : Nat) (b : List Nat) (hn : n < U64) (hb : 8 ≤ b.length) :
    ∃ b1, putSeq b n = some b1 ∧
      uint64 (b1.take 8) = some n ∧
      b1.length = b.length ∧
      (∀ i, 8 ≤ i → b1[i]? = b[i]?) ∧
      (∀ arr : List Nat, arr.length = bufSize → recvSeq arr b1 = some n) := by
  have hlen : (beBytes n ++ b.drop 8).length = b.length := by
    rw [List.length_append, beBytes_length, List.length_drop]; omega
  refine ⟨beBytes n ++ b.drop 8, putSeq_eq b n hb, ?_, hlen, ?_, ?_⟩
  · rw [take8_beBytes_append]
    have := uint64_beBytes n hn []
    rwa [List.append_nil] at this
  · intro i hi
    rw [List.getElem?_append_right (by rw [beBytes_length]; exact hi), beBytes_length,
      List.getElem?_drop]
    congr 1
    omega
  · intro arr harr
    unfold recvSeq
    have ha : 8 ≤ arr.length := by rw [harr]; decide
    rw [readFrom_take8 arr _ ha (by rw [hlen]; exact hb), take8_beBytes_append]
    have := uint64_beBytes n hn []
    rwa [List.append_nil] at this

/-- C5, on a 10-byte buffer and the sequence number 258. -/
theorem seq_roundtrip_witness :
    putSeq [9, 9, 9, 9, 9, 9, 9, 9, 5, 6] 258 = some [0, 0, 0, 0, 0, 0, 1, 2, 5, 6] ∧
    uint64 [0, 0, 0, 0, 0, 0, 1, 2] = some 258 ∧
    ∃ b1, putSeq [9, 9, 9, 9, 9, 9, 9, 9, 5, 6] 258 = some b1 ∧
      uint64 (b1.take 8) = some 258 ∧
      b1.length = [9, 9, 9, 9, 9, 9, 9, 9, 5, 6].length ∧
      (∀ i, 8 ≤ i → b1[i]? = [9, 9, 9, 9, 9, 9, 9, 9, 5, 6][i]?) ∧
      (∀ arr : List Nat, arr.length = bufSize → recvSeq arr b1 = some 258) :=
  ⟨by decide, by decide,
    seq_roundtrip 258 [9, 9, 9, 9, 9, 9, 9, 9, 5, 6] (by decide) (by decide)⟩

/-! ## Theorems: `parseBytes` -/

theorem wrapInt64_of_fits (x : Int) (hlo : -(2 ^ 63) ≤ x) (hhi : x < 2 ^ 63) :
    wrapInt64 x = x := by
  unfold wrapInt64; omega

theorem wrapInt64_range (x : Int) : -(2 ^ 63) ≤ wrapInt64 x ∧ wrapInt64 x < 2 ^ 63 := by
  unfold wrapInt64; omega

theorem parseUintLoop_range (s : List Nat) (n v : Nat)
    (h : parseUintLoop n s = (v, some NumError.errRange)) : v = U64 - 1 := by
  induction s generalizing n with
  | nil => simp [parseUintLoop] at h
  | cons c cs ih =>
    unfold parseUintLoop at h
    split at h
    · simp only at h
      split at h
      · exact (Prod.mk.inj h).1.symm
      · split at h
        · exact (Prod.mk.inj h).1.symm
        · exact ih _ h
    · simp at h

theorem parseUintLoop_digits (s : List Nat) (n v : Nat)
    (h : parseUintLoop n s = (v, none)) : ∀ c ∈ s, '0'.toNat ≤ c ∧ c ≤ '9'.toNat := by
  induction s generalizing n with
  | nil => intro c hc; cases hc
  | cons c cs ih =>
    unfold parseUintLoop at h
    split at h
    · rename_i hdig
      simp only at h
      split at h
      · simp at h
      · split at h
        · simp at h
        · intro x hx
          rcases List.mem_cons.mp hx with rfl | hx
          · exact hdig
          · exact ih _ h x hx
    · simp at h

/-- A string accepted by `strconv.ParseInt` is not empty, ends in a decimal digit, and
its value is an `int64`. -/
theorem parseInt_ok (d : List Nat) (n : Int) (h : parseInt d = (n, none)) :
    (∃ c, d.getLast? = some c ∧ '0'.toNat ≤ c ∧ c ≤ '9'.toNat) ∧
      -(2 ^ 63) ≤ n ∧ n < 2 ^ 63 := by
  match d, h with
  | c :: cs, h =>
    unfold parseInt at h
    simp only at h
    generalize hbody : (if c = '+'.toNat ∨ c = '-'.toNat then cs else c :: cs) = body at h
    generalize hr : parseUint body = r at h
    obtain ⟨v, e⟩ := r
    simp only at h
    split at h
    · rename_i hs
      subst hs
      simp at h
    · rename_i hns
      have he : e = none := by
        cases e with
        | none => rfl
        | some err =>
          cases err with
          | errSyntax => exact absurd rfl hns
          | errRange =>
            have hv : v = U64 - 1 := by
              unfold parseUint at hr
              split at hr
              · simp at hr
              · exact parseUintLoop_range _ _ _ hr
            have hbig : 9223372036854775808 ≤ v ∧ 9223372036854775808 < v := by
              rw [hv]; unfold U64; omega
            have e45 : '-'.toNat = 45 := rfl
            rw [e45] at h
            by_cases hneg : c = 45
            · simp [hneg, hbig.2] at h
            · simp [hneg, hbig.1] at h
      subst he
      have hbne : body ≠ [] := by
        intro hb
        rw [hb] at hr
        simp [parseUint] at hr
      have hdig : ∀ x ∈ body, '0'.toNat ≤ x ∧ x ≤ '9'.toNat := by
        unfold parseUint at hr
        rw [if_neg hbne] at hr
        exact parseUintLoop_digits _ _ _ hr
      have hlast : (c :: cs).getLast? = body.getLast? := by
        rw [← hbody]
        split
        · rw [← hbody] at hbne
          rename_i hsgn
          rw [if_pos hsgn] at hbne
          obtain ⟨y, ys, rfl⟩ := List.exists_cons_of_ne_nil hbne
          rw [List.getLast?_cons_cons]
        · rfl
      have hval : -(2 ^ 63) ≤ n ∧ n < 2 ^ 63 := by
        split at h
        · simp at h
        · split at h
          · simp at h
          · have hn := (Prod.mk.inj h).1
            rw [← hn]
            split
            · exact wrapInt64_range _
            · exact wrapInt64_range _
      refine ⟨?_, hval⟩
      rw [hlast]
      have hmem := List.getLast_mem hbne
      exact ⟨body.getLast hbne, List.getLast?_eq_getLast _ hbne, hdig _ hmem⟩

theorem parseBytes_suffix (d : List Nat) (n : Int) (u : Nat) (k : Nat)
    (h : parseInt d = (n, none))
    (hu : (u = 'k'.toNat ∧ k = 10) ∨ (u = 'm'.toNat ∧ k = 20) ∨ (u = 'g'.toNat ∧ k = 30)) :
    parseBytes (d ++ [u]) = Outcome.ret (wrapInt64 (n * 2 ^ k)) none := by
  have hrange := (parseInt_ok d n h).2
  have hmul : mulInt64 n 1 = n := by
    unfold mulInt64
    rw [Int.mul_one]
    exact wrapInt64_of_fits n hrange.1 hrange.2
  unfold parseBytes
  rw [List.getLast?_concat, List.dropLast_concat, h]
  simp only [hmul, shlInt64]
  rcases hu with ⟨rfl, rfl⟩ | ⟨rfl, rfl⟩ | ⟨rfl, rfl⟩ <;> simp

/-- C6 (amended). For every string `d` that `strconv.ParseInt(d, 10, 64)` accepts with
value `n`: `parseBytes(d)` returns `n`; with a final `k`, `m` or `g` appended it returns
`n * 1024`, `n * 1024^2`, `n * 1024^3` reduced to `int64` (two's complement), which is the
product itself whenever the product is an `int64`; the error is nil each time. -/
theorem parseBytes_units (d : List Nat) (n : Int) (h : parseInt d = (n, none)) :
    parseBytes d = Outcome.ret n none ∧
    parseBytes (d ++ bytes "k") = Outcome.ret (wrapInt64 (n * 1024)) none ∧
    parseBytes (d ++ bytes "m") = Outcome.ret (wrapInt64 (n * 1024 ^ 2)) none ∧
    parseBytes (d ++ bytes "g") = Outcome.ret (wrapInt64 (n * 1024 ^ 3)) none ∧
    (-(2 ^ 63) ≤ n * 1024 → n * 1024 < 2 ^ 63 →
      parseBytes (d ++ bytes "k") = Outcome.ret (n * 1024) none) ∧
    (-(2 ^ 63) ≤ n * 1024 ^ 2 → n * 1024 ^ 2 < 2 ^ 63 →
      parseBytes (d ++ bytes "m") = Outcome.ret (n * 1024 ^ 2) none) ∧
    (-(2 ^ 63) ≤ n * 1024 ^ 3 → n * 1024 ^ 3 < 2 ^ 63 →
      parseBytes (d ++ bytes "g") = Outcome.ret (n * 1024 ^ 3) none) := by
  have hk : parseBytes (d ++ bytes "k") = Outcome.ret (wrapInt64 (n * 1024)) none :=
    parseBytes_suffix d n _ 10 h (Or.inl ⟨rfl, rfl⟩)
  have hm : parseBytes (d ++ bytes "m") = Outcome.ret (wrapInt64 (n * 1024 ^ 2)) none :=
    parseBytes_suffix d n _ 20 h (Or.inr (Or.inl ⟨rfl, rfl⟩))
  have hg : parseBytes (d ++ bytes "g") = Outcome.ret (wrapInt64 (n * 1024 ^ 3)) none :=
    parseBytes_suffix d n _ 30 h (Or.inr (Or.inr ⟨rfl, rfl⟩))
  refine ⟨?_, hk, hm, hg, fun a b => ?_, fun a b => ?_, fun a b => ?_⟩
  · obtain ⟨⟨c, hc, hlo, hhi⟩, _⟩ := parseInt_ok d n h
    unfold parseBytes
    rw [hc]
    have hnot : c ≠ 'k'.toNat ∧ c ≠ 'm'.toNat ∧ c ≠ 'g'.toNat := by
      have e1 : '9'.toNat = 57 := rfl
      have e2 : 'k'.toNat = 107 := rfl
      have e3 : 'm'.toNat = 109 := rfl
      have e4 : 'g'.toNat = 103 := rfl
      omega
    simp only
    rw [if_pos hnot, h]
  · rw [hk, wrapInt64_of_fits _ a b]
  · rw [hm, wrapInt64_of_fits _ a b]
  · rw [hg, wrapInt64_of_fits _ a b]

/-- C6, on the strings of the specification: `1k`, `2m`, `3g` and `500`. -/
theorem parseBytes_units_witness :
    parseBytes (bytes "1k") = Outcome.ret 1024 none ∧
    parseBytes (bytes "2m") = Outcome.ret 2097152 none ∧
    parseBytes (bytes "3g") = Outcome.ret 3221225472 none ∧
    parseBytes (bytes "500") = Outcome.ret 500 none ∧
    parseBytes (bytes "3" ++ bytes "g") = Outcome.ret (3 * 1024 ^ 3) none :=
  ⟨by decide, by decide, by decide, by decide,
    (parseBytes_units (bytes "3") 3 (by decide)).2.2.2.2.2.2 (by decide) (by decide)⟩

/-- C6 as stated fails on overflow: `strconv.ParseInt` accepts `9007199254740992` with
value `2 ^ 53`, and `parseBytes("9007199254740992k")` returns `-2 ^ 63` with a nil error,
not `2 ^ 53 * 1024`. -/
theorem parseBytes_units_overflow :
    parseInt (bytes "9007199254740992") = (9007199254740992, none) ∧
    parseBytes (bytes "9007199254740992" ++ bytes "k")
      = Outcome.ret (-9223372036854775808) none ∧
    parseBytes (bytes "9007199254740992" ++ bytes "k")
      ≠ Outcome.ret (9007199254740992 * 1024) none := by
  refine ⟨by decide, by decide, by decide⟩

/-- C7 at the failing input. The numeric part of the empty string is the empty string,
which `strconv.ParseInt` rejects, and `parseBytes("")` panics instead of returning an
error. -/
theorem parseBytes_empty_panics :
    numericPart (bytes "") = bytes "" ∧
    (parseInt (numericPart (bytes ""))).2 = some NumError.errSyntax ∧
    parseBytes (bytes "") = Outcome.panic := by
  refine ⟨by decide, by decide, by decide⟩

/-- On every string but the empty one, an invalid numeric part makes `parseBytes` return
a non-nil error. -/
theorem parseBytes_error_of_invalid (s : List Nat) (hs : s ≠ [])
    (hbad : (parseInt (numericPart s)).2 ≠ none) :
    ∃ v e, parseBytes s = Outcome.ret v (some e) := by
  obtain ⟨u, hu⟩ : ∃ u, s.getLast? = some u :=
    ⟨s.getLast hs, List.getLast?_eq_getLast _ hs⟩
  unfold numericPart at hbad
  unfold parseBytes
  rw [hu] at hbad ⊢
  simp only at hbad ⊢
  split
  · rename_i hc
    rw [if_pos hc] at hbad
    obtain ⟨e, he⟩ := Option.ne_none_iff_exists'.mp hbad
    exact ⟨_, e, by rw [he]⟩
  · rename_i hc
    rw [if_neg hc] at hbad
    rw [if_pos hbad]
    obtain ⟨e, he⟩ := Option.ne_none_iff_exists'.mp hbad
    exact ⟨0, e, by rw [he]⟩

/-! ## Theorems: the emitter -/

/-- C10 (amended). For every bandwidth `B` (an `int64`) and payload size `L ≥ 8` with
`R = floor(B / L) ≥ 1`, `runClient` computes `pps = R` and the pace period
`p = time.Second / pps`, the floor of `10^9 / R` nanoseconds: `p * R ≤ 10^9 < (p + 1) * R`.
The period is strictly positive exactly when `R ≤ 10^9`, and then the pace ticker is
created with it; for `R > 10^9` the period is 0 and `time.NewTicker` panics. -/
theorem pace_period (B L : Int) (hB : B < 2 ^ 63) (hL : 8 ≤ L) (hR : 1 ≤ B.fdiv L) :
    packetsPerSecond B L = some (B.fdiv L) ∧
    ∃ p, pacePeriod (B.fdiv L) = some p ∧
      p * B.fdiv L ≤ 10 ^ 9 ∧ 10 ^ 9 < (p + 1) * B.fdiv L ∧
      (0 < p ↔ B.fdiv L ≤ 10 ^ 9) ∧
      (B.fdiv L ≤ 10 ^ 9 → paceTicker B L = some p) ∧
      (10 ^ 9 < B.fdiv L → p = 0 ∧ paceTicker B L = none) := by
  have hL0 : (0 : Int) < L := by omega
  have hfd : B.fdiv L = B / L := Int.fdiv_eq_ediv B (by omega)
  rw [hfd] at hR ⊢
  have hBL : L ≤ B := by
    by_contra hlt
    have : B / L < 1 := Int.ediv_lt_of_lt_mul hL0 (by omega)
    omega
  have hB0 : (0 : Int) ≤ B := by omega
  have htd : B.tdiv L = B / L := Int.tdiv_eq_ediv hB0 (by omega)
  have hRle : B / L ≤ B := Int.ediv_le_self L hB0
  have hR0 : (0 : Int) < B / L := by omega
  have hpps : packetsPerSecond B L = some (B / L) := by
    unfold packetsPerSecond
    rw [if_neg (by omega), htd, wrapInt64_of_fits _ (by omega) (by omega)]
  have hp0 : (0 : Int) ≤ 10 ^ 9 / (B / L) := Int.ediv_nonneg (by norm_num) (by omega)
  have hp1 : 10 ^ 9 / (B / L) * (B / L) ≤ 10 ^ 9 := Int.ediv_mul_le _ (by omega)
  have hp2 : (10 : Int) ^ 9 < (10 ^ 9 / (B / L) + 1) * (B / L) :=
    Int.lt_ediv_add_one_mul_self _ hR0
  have hp3 : 10 ^ 9 / (B / L) ≤ 10 ^ 9 := Int.ediv_le_self _ (by norm_num)
  have hper : pacePeriod (B / L) = some (10 ^ 9 / (B / L)) := by
    unfold pacePeriod second
    rw [if_neg (by omega), Int.tdiv_eq_ediv (by norm_num) (by omega)]
    have e9 : (1000000000 : Int) = 10 ^ 9 := by norm_num
    rw [e9, wrapInt64_of_fits _ (by omega) (by omega)]
  have hpos : 0 < 10 ^ 9 / (B / L) ↔ B / L ≤ 10 ^ 9 := by
    have := Int.le_ediv_iff_mul_le (a := 1) (b := 10 ^ 9) hR0
    constructor
    · intro h; have := this.mp (by omega); omega
    · intro h; have := this.mpr (by omega); omega
  refine ⟨hpps, _, hper, hp1, hp2, hpos, fun hle => ?_, fun hgt => ?_⟩
  · unfold paceTicker
    rw [hpps]
    simp only [hper]
    unfold newTicker
    rw [if_neg (by have := hpos.mpr hle; omega)]
  · have hz : 10 ^ 9 / (B / L) = 0 := by
      have : ¬ 0 < 10 ^ 9 / (B / L) := fun h => by have := hpos.mp h; omega
      omega
    refine ⟨hz, ?_⟩
    unfold paceTicker
    rw [hpps]
    simp only [hper, hz]
    rfl

/-- C10, on the defaults of the command line: bandwidth `1m` and 1250-byte payloads. -/
theorem pace_period_witness :
    packetsPerSecond 1048576 1250 = some 838 ∧
    pacePeriod 838 = some 1193317 ∧
    paceTicker 1048576 1250 = some 1193317 ∧
    packetsPerSecond 1048576 1250 = some (Int.fdiv 1048576 1250) :=
  ⟨by decide, by decide, by decide,
    (pace_period 1048576 1250 (by decide) (by decide) (by decide)).1⟩

/-- C10 as stated fails for rates above `10^9`: with bandwidth `8g` and 8-byte payloads,
`R = 2^30 ≥ 1`, the period `time.Second / pps` is 0, not strictly positive, and
`time.NewTicker` panics. -/
theorem pace_period_zero :
    (8 : Int) ≤ 8 ∧ 1 ≤ Int.fdiv 8589934592 8 ∧
    parseBytes (bytes "8g") = Outcome.ret 8589934592 none ∧
    packetsPerSecond 8589934592 8 = some 1073741824 ∧
    pacePeriod 1073741824 = some 0 ∧
    ¬ ((0 : Int) < 0) ∧
    paceTicker 8589934592 8 = none := by
  refine ⟨by decide, by decide, by decide, by decide, by decide, by decide, by decide⟩

theorem clientInit_inv (L : Nat) : ClientInv L (clientInit L) := by
  refine ⟨by simp [clientInit], by simp [clientInit], by simp [clientInit], ?_⟩
  intro i d h
  simp [clientInit] at h

theorem clientStep_inv (L : Nat) (hL : 8 ≤ L) (c : Client) (e : Event) (writeOk : Bool)
    (hinv : ClientInv L c) : ClientInv L (clientStep c e writeOk) := by
  obtain ⟨hlen, hst, hpn, hsent⟩ := hinv
  cases e with
  | report => exact ⟨hlen, hst, hpn, hsent⟩
  | deadline => exact ⟨hlen, by simp [clientStep], hpn, hsent⟩
  | pace =>
    have hput : putSeq c.b (add64 c.pn 1) = some (beBytes (add64 c.pn 1) ++ c.b.drop 8) :=
      putSeq_eq c.b _ (by omega)
    have hnew : (beBytes (add64 c.pn 1) ++ c.b.drop 8).length = L := by
      rw [List.length_append, beBytes_length, List.length_drop]; omega
    have hadd : add64 c.pn 1 = (c.sent.length + 1) % U64 := by
      unfold add64; rw [hpn, Nat.mod_add_mod]
    simp only [clientStep, hput]
    refine ⟨hnew, ?_, ?_, ?_⟩
    · cases writeOk <;> simp
    · simp only [List.length_append, List.length_singleton]; exact hadd
    · intro i d hd
      simp only at hd
      by_cases hi : i < c.sent.length
      · rw [List.getElem?_append_left hi] at hd
        exact hsent i d hd
      · rw [List.getElem?_append_right (by omega)] at hd
        have hi0 : i - c.sent.length = 0 := by
          by_contra hne
          rw [List.getElem?_eq_none (by simp; omega)] at hd
          cases hd
        rw [hi0] at hd
        simp only [List.getElem?_cons_zero, Option.some.injEq] at hd
        have hie : i = c.sent.length := by omega
        rw [← hd, hie, ← hadd]
        exact ⟨hnew, take8_beBytes_append _ _⟩

theorem clientRun_inv (L : Nat) (hL : 8 ≤ L) (evs : List (Event × Bool)) (c : Client)
    (hinv : ClientInv L c) : ClientInv L (clientRun c evs) := by
  induction evs generalizing c with
  | nil => exact hinv
  | cons ev rest ih =>
    obtain ⟨e, writeOk⟩ := ev
    unfold clientRun
    split
    · exact ih _ (clientStep_inv L hL c e writeOk hinv)
    · exact hinv

/-- C8. In the send loop of `runClient` with payload size `L ≥ 8`, whatever cases the
`select` statements take: nothing panics; `pn` is the number of datagrams handed to the
socket so far (modulo `2 ^ 64`); for every `k ≥ 1` below `2 ^ 64` the `k`-th datagram
handed to the socket has exactly `L` bytes and its first 8 bytes are the big-endian
encoding of `k`, which decodes to `k`; and an iteration on the report case leaves `pn`,
the buffer and the datagrams untouched and sets the report baseline to `pn`. -/
theorem client_sequence (L : Nat) (hL : 8 ≤ L) (evs : List (Event × Bool)) :
    (clientRun (clientInit L) evs).status ≠ Status.panicked ∧
    (clientRun (clientInit L) evs).pn = (clientRun (clientInit L) evs).sent.length % U64 ∧
    (∀ k, 1 ≤ k → k ≤ (clientRun (clientInit L) evs).sent.length → k < U64 →
      ∃ d, (clientRun (clientInit L) evs).sent[k - 1]? = some d ∧ d.length = L ∧
        d.take 8 = beBytes k ∧ uint64 (d.take 8) = some k) ∧
    (∀ (c : Client) (writeOk : Bool),
      (clientStep c Event.report writeOk).pn = c.pn ∧
      (clientStep c Event.report writeOk).b = c.b ∧
      (clientStep c Event.report writeOk).sent = c.sent ∧
      (clientStep c Event.report writeOk).status = c.status ∧
      (clientStep c Event.report writeOk).highestReported = c.pn) := by
  obtain ⟨_, hst, hpn, hsent⟩ := clientRun_inv L hL evs _ (clientInit_inv L)
  refine ⟨hst, hpn, fun k hk1 hk2 hk3 => ?_, fun c writeOk => ⟨rfl, rfl, rfl, rfl, rfl⟩⟩
  have hlt : k - 1 < (clientRun (clientInit L) evs).sent.length := by omega
  have hget := List.getElem?_eq_getElem hlt
  obtain ⟨h1, h2⟩ := hsent _ _ hget
  have hk : (k - 1 + 1) % U64 = k := by
    rw [Nat.sub_add_cancel hk1]; exact Nat.mod_eq_of_lt hk3
  rw [hk] at h2
  refine ⟨_, hget, h1, h2, ?_⟩
  rw [h2]
  have := uint64_beBytes k hk3 []
  rwa [List.append_nil] at this

/-- C8, with 10-byte payloads: two pace events around a report event send the datagrams
numbered 1 and 2; the second one has 10 bytes and starts with the encoding of 2. -/
theorem client_sequence_witness :
    (clientRun (clientInit 10)
        [(Event.pace, true), (Event.report, true), (Event.pace, true)]).sent
      = [[0, 0, 0, 0, 0, 0, 0, 1, 0, 0], [0, 0, 0, 0, 0, 0, 0, 2, 0, 0]] ∧
    ∃ d, (clientRun (clientInit 10)
        [(Event.pace, true), (Event.report, true), (Event.pace, true)]).sent[2 - 1]? = some d ∧
      d.length = 10 ∧ d.take 8 = beBytes 2 ∧ uint64 (d.take 8) = some 2 :=
  ⟨by decide,
    (client_sequence 10 (by decide)
      [(Event.pace, true), (Event.report, true), (Event.pace, true)]).2.2.1 2
      (by decide) (by decide) (by decide)⟩

/-- C9 as stated fails: with the deadline and the pace case both ready, `select` may take
the pace case, and the iteration sends a datagram although the deadline is ready. -/
theorem deadline_has_no_priority :
    ¬ ∀ (ready : List Event) (writeOk : Bool) (c c1 : Client),
      c.status = Status.running → Event.deadline ∈ ready →
      selectStep ready writeOk c c1 → c1.sent = c.sent := by
  intro h
  have h1 := h [Event.deadline, Event.pace] true (clientInit 8)
    (clientStep (clientInit 8) Event.pace true) rfl (by decide)
    ⟨Event.pace, by decide, rfl⟩
  exact absurd h1 (by decide)

/-- C9 (amended). Each iteration of the send loop services one of the ready cases, taken
arbitrarily. When the case taken is the deadline, no datagram is sent and `runClient`
returns nil, so that nothing is sent afterwards whatever becomes ready; and an iteration
sends a datagram only when the pace case is ready and is the one taken. -/
theorem deadline_stops_sending (c : Client) (writeOk : Bool) (rest : List (Event × Bool))
    (hrun : c.status = Status.running) :
    (clientStep c Event.deadline writeOk).sent = c.sent ∧
    (clientStep c Event.deadline writeOk).status = Status.returned false ∧
    (clientRun c ((Event.deadline, writeOk) :: rest)).sent = c.sent ∧
    (clientRun c ((Event.deadline, writeOk) :: rest)).status = Status.returned false ∧
    (∀ (ready : List Event) (c1 : Client), selectStep ready writeOk c c1 →
      c1.sent ≠ c.sent → Event.pace ∈ ready ∧ c1 = clientStep c Event.pace writeOk) := by
  have hstop : clientRun c ((Event.deadline, writeOk) :: rest)
      = clientStep c Event.deadline writeOk := by
    rw [clientRun, hrun]
    simp only
    cases rest with
    | nil => rfl
    | cons ev rest1 =>
      obtain ⟨e, w⟩ := ev
      rw [clientRun]
      rfl
  refine ⟨rfl, rfl, by rw [hstop]; rfl, by rw [hstop]; rfl, ?_⟩
  rintro ready c1 ⟨e, he, rfl⟩ hne
  cases e with
  | report => exact absurd rfl hne
  | deadline => exact absurd rfl hne
  | pace => exact ⟨he, rfl⟩

/-- C9, from the start of the loop with 8-byte payloads: the deadline is taken in the
first iteration although a pace event follows; nothing is sent. -/
theorem deadline_stops_sending_witness :
    (clientRun (clientInit 8) [(Event.deadline, true), (Event.pace, true)]).sent = [] ∧
    (clientRun (clientInit 8) [(Event.deadline, true), (Event.pace, true)]).status
      = Status.returned false :=
  ⟨(deadline_stops_sending (clientInit 8) true [(Event.pace, true)] rfl).2.2.1,
   (deadline_stops_sending (clientInit 8) true [(Event.pace, true)] rfl).2.2.2.1⟩

end Udpperf
